import Mathlib

/-!
Verification of the `tcpcm_transcriber` text chunker and text normalizer.

The development shallowly embeds `src/tcpcm_transcriber/chunk.py`
(`TextChunker.__init__`, `TextChunker.chunk_segments`) and
`src/tcpcm_transcriber/normalize.py` (`TextNormalizer.normalize`,
`_apply_glossary`, `_remove_fillers`) in Lean:

* Python `str` values are modelled as `List Char`.
* Python `float` timestamps are modelled as `Rat`; the chunker only copies
  them from segments into chunks and never computes with them.
* The chunking `while` loop is modelled with an explicit fuel parameter;
  `fullText.length + 1` fuel is enough for every validly constructed
  chunker (stride ≥ 1), which is proved as a fuel-stability theorem.
* Python's `re` based glossary/filler substitution (an alternation of
  escaped literal phrases wrapped in word boundaries, `IGNORECASE`,
  applied with `pattern.sub`) is modelled by a left-to-right scan that at
  each position tries the alternatives in order, checking a
  case-insensitive literal match plus `\b` word-boundary context.
-/

namespace Tcpcm

/-- Whitespace test used for Python `str.strip` / `\s`. -/
def isSpace (c : Char) : Bool := c.isWhitespace

/-- Python `str.strip()`: drop leading and trailing whitespace. -/
def strip (s : List Char) : List Char :=
  ((s.dropWhile isSpace).reverse.dropWhile isSpace).reverse

/-- Python slice `s[a:b]` for `0 ≤ a ≤ b` (the only shape the chunker uses). -/
def slice {α : Type} (s : List α) (a b : Nat) : List α :=
  (s.take b).drop a

/-- Transcription segment (`schemas.Segment`).  The Python field `end` is
called `stop` here because `end` is a Lean keyword. -/
structure Segment where
  id : Int
  start : Rat
  stop : Rat
  text : List Char
deriving DecidableEq, Repr

/-- RAG chunk (`schemas.Chunk`).  The Python field `end` is called `stop`. -/
structure Chunk where
  chunk_id : Nat
  text : List Char
  start : Rat
  stop : Rat
  segment_ids : List Int
  char_count : Nat
  source_file : Option (List Char)
deriving DecidableEq, Repr

/-- The `TextChunker` configuration state set up by `TextChunker.__init__`. -/
structure TextChunker where
  target_chars : Nat
  overlap_chars : Nat
  stride : Nat
deriving DecidableEq, Repr

/-- Embeds `TextChunker.__init__`: raises `ValueError` (the spec's
`ConfigurationError`) when `overlap_chars >= target_chars`, otherwise
stores the configuration together with `stride = target_chars - overlap_chars`. -/
def TextChunker.init (target_chars overlap_chars : Nat) : Except String TextChunker :=
  if overlap_chars ≥ target_chars then
    Except.error "overlap_chars must be less than target_chars"
  else
    Except.ok { target_chars := target_chars, overlap_chars := overlap_chars,
                stride := target_chars - overlap_chars }

/-- The segment-concatenation loop of `chunk_segments`: returns the
concatenated text (each segment's text followed by one space) together with
the parallel `char_to_segment` list mapping each character index of the
unstripped text to the segment that produced it. -/
def buildText : List Segment → List Char × List Segment
  | [] => ([], [])
  | seg :: rest =>
    let p := buildText rest
    (seg.text ++ ' ' :: p.1, List.replicate (seg.text.length + 1) seg ++ p.2)

/-- Embeds `sorted(_, key=lambda s: s.id)` on the deduplicated contributing segments. -/
def sortById (l : List Segment) : List Segment :=
  l.insertionSort (fun a b => a.id ≤ b.id)

/-- Emission step of the loop body: `if chunk_segments:` build one chunk
(from the contributing segments sorted by id), else emit nothing. -/
def mkChunks (chunk_id : Nat) (chunk_text : List Char) (sf : Option (List Char)) :
    List Segment → List Chunk
  | [] => []
  | s0 :: rest =>
    [{ chunk_id := chunk_id
       text := chunk_text
       start := s0.start
       stop := (List.getLast (s0 :: rest) (List.cons_ne_nil s0 rest)).stop
       segment_ids := (s0 :: rest).map Segment.id
       char_count := chunk_text.length
       source_file := sf }]

/-- The sliding-window `while` loop of `chunk_segments`, with explicit fuel.
`fullText` is the stripped concatenated text, `charToSeg` the (unstripped)
per-character owner list. -/
def chunkLoop (c : TextChunker) (fullText : List Char) (charToSeg : List Segment)
    (sf : Option (List Char)) : Nat → Nat → Nat → List Chunk
  | 0, _, _ => []
  | fuel + 1, start_char, chunk_id =>
    if start_char < fullText.length then
      let end_char := min (start_char + c.target_chars) fullText.length
      let chunk_text := strip (slice fullText start_char end_char)
      if chunk_text.isEmpty then []
      else
        let segs := sortById (slice charToSeg start_char (min end_char charToSeg.length)).dedup
        let emitted := mkChunks chunk_id chunk_text sf segs
        emitted ++
          (if fullText.length ≤ end_char then []
           else chunkLoop c fullText charToSeg sf fuel (start_char + c.stride)
                  (chunk_id + emitted.length))
    else []

/-- Embeds `TextChunker.chunk_segments` with an explicit fuel bound on the number of
loop iterations. -/
def TextChunker.chunk_segmentsFuel (c : TextChunker) (segments : List Segment)
    (sf : Option (List Char)) (fuel : Nat) : List Chunk :=
  if segments.isEmpty then []
  else
    let built := buildText segments
    let fullText := strip built.1
    chunkLoop c fullText built.2 sf fuel 0 0

/-- Embeds `TextChunker.chunk_segments`.  `fullText.length + 1` fuel is sufficient
for every chunker with `stride ≥ 1` (proved below as fuel stability). -/
def TextChunker.chunk_segments (c : TextChunker) (segments : List Segment)
    (sf : Option (List Char)) : List Chunk :=
  c.chunk_segmentsFuel segments sf ((strip (buildText segments).1).length + 1)

/-- Instrumented copy of the `chunk_segments` loop that records every window
`(start_char, end_char)` the loop processes (including a final window whose
trimmed text is empty, at which the loop stops). -/
def windowLoop (c : TextChunker) (fullText : List Char) : Nat → Nat → List (Nat × Nat)
  | 0, _ => []
  | fuel + 1, start_char =>
    if start_char < fullText.length then
      let end_char := min (start_char + c.target_chars) fullText.length
      let chunk_text := strip (slice fullText start_char end_char)
      if chunk_text.isEmpty then [(start_char, end_char)]
      else
        (start_char, end_char) ::
          (if fullText.length ≤ end_char then []
           else windowLoop c fullText fuel (start_char + c.stride))
    else []

/-- The windows processed by `chunk_segments` on the given segments. -/
def chunkWindows (c : TextChunker) (segments : List Segment) : List (Nat × Nat) :=
  let fullText := strip (buildText segments).1
  windowLoop c fullText (fullText.length + 1) 0

/-! ## Text normalizer (`normalize.py`) -/

/-- The `FILLER_WORDS` constant from `normalize.py`. -/
def FILLER_WORDS : List (List Char) :=
  ["um".toList, "uh".toList, "hmm".toList, "mhm".toList, "uh-huh".toList,
   "mm-hmm".toList, "like".toList, "you know".toList, "i mean".toList,
   "sort of".toList, "kind of".toList]

/-- Word character for the regex `\b` boundary (`[A-Za-z0-9_]`; Python's
`\w` is Unicode-aware but the repository's glossary and fillers are ASCII). -/
def wordChar (c : Char) : Bool := c.isAlphanum || c == '_'

/-- Whether `\b` matches between an optional left and right character
(out-of-string counts as a non-word side). -/
def boundary (l r : Option Char) : Bool :=
  (match l with | none => false | some c => wordChar c)
    != (match r with | none => false | some c => wordChar c)

/-- Case-insensitive test that `term` is a prefix of `s`
(`re.IGNORECASE` on literal phrases). -/
def matchesCI : List Char → List Char → Bool
  | [], _ => true
  | _ :: _, [] => false
  | a :: as_, b :: bs => (a.toLower == b.toLower) && matchesCI as_ bs

/-- Try the alternation's branches in order at the current position `s`
(whose predecessor character is `prev`): the regex engine picks the first
alternative that matches together with both `\b` contexts. -/
def findMatch (terms : List (List Char)) (prev : Option Char) (s : List Char) :
    Option (List Char) :=
  terms.find? fun t =>
    !t.isEmpty && matchesCI t s && boundary prev s.head? &&
      boundary (s.take t.length).getLast? (s.drop t.length).head?

/-- Embeds `pattern.sub(repl, text)` scanning, with fuel (one unit per consumed
character suffices, since every step consumes at least one character). -/
def subGo (terms : List (List Char)) (repl : List Char → List Char) :
    Nat → Option Char → List Char → List Char
  | 0, _, s => s
  | _ + 1, _, [] => []
  | fuel + 1, prev, c :: rest =>
    match findMatch terms prev (c :: rest) with
    | some t =>
      repl ((c :: rest).take t.length) ++
        subGo terms repl fuel ((c :: rest).take t.length).getLast?
          ((c :: rest).drop t.length)
    | none => c :: subGo terms repl fuel (some c) rest

/-- Embeds `pattern.sub(repl, text)` for the word-boundary alternation pattern. -/
def subScan (terms : List (List Char)) (repl : List Char → List Char)
    (s : List Char) : List Char :=
  subGo terms repl s.length none s

/-- Embeds `sorted(glossary.keys(), key=len, reverse=True)`: stable descending
sort by length (a term is inserted before the first strictly shorter one). -/
def sortTermsDesc (terms : List (List Char)) : List (List Char) :=
  terms.insertionSort (fun a b => b.length ≤ a.length)

/-- The `replace_func` closure of `_apply_glossary`: look the matched text up in the
glossary case-insensitively (first key in insertion order wins) and return
its canonical value, or the matched text itself when no key matches. -/
def replaceFunc (glossary : List (List Char × List Char)) (matched : List Char) :
    List Char :=
  match glossary.find? (fun kv => kv.1.map Char.toLower == matched.map Char.toLower) with
  | some kv => kv.2
  | none => matched

/-- Embeds `TextNormalizer._apply_glossary`. -/
def applyGlossary (glossary : List (List Char × List Char)) (text : List Char) :
    List Char :=
  subScan (sortTermsDesc (glossary.map Prod.fst)) (replaceFunc glossary) text

/-- Embeds `TextNormalizer._remove_fillers`. -/
def removeFillers (text : List Char) : List Char :=
  subScan FILLER_WORDS (fun _ => []) text

/-- Embeds `re.sub(r'\s+', ' ', text)`: collapse each maximal whitespace run into a
single space.  The flag records whether the previous character was part of a
whitespace run already rewritten. -/
def collapseAux : Bool → List Char → List Char
  | _, [] => []
  | inRun, c :: rest =>
    if isSpace c then
      (if inRun then [] else [' ']) ++ collapseAux true rest
    else c :: collapseAux false rest

/-- Embeds `TextNormalizer.normalize`: glossary substitution, optional filler
removal, whitespace collapsing and stripping.  The glossary is the
insertion-ordered `dict` as a key/value list. -/
def normalize (glossary : List (List Char × List Char)) (remove_fillers : Bool)
    (text : List Char) : List Char :=
  if text.isEmpty then text
  else
    let t1 := if glossary.isEmpty then text else applyGlossary glossary text
    let t2 := if remove_fillers then removeFillers t1 else t1
    strip (collapseAux false t2)

/-- Scanning-order search mirroring `subGo`: does the pattern match anywhere
in the text (i.e. would `pattern.sub` rewrite anything)? -/
def existsMatch (terms : List (List Char)) : Option Char → List Char → Bool
  | _, [] => false
  | prev, c :: rest =>
    (findMatch terms prev (c :: rest)).isSome || existsMatch terms (some c) rest

/-! ## Basic lemmas on `strip` and `slice` -/

theorem strip_length_le (s : List Char) : (strip s).length ≤ s.length := by
  have h1 : (s.dropWhile isSpace).length ≤ s.length :=
    (List.dropWhile_suffix isSpace).sublist.length_le
  have h2 : ((s.dropWhile isSpace).reverse.dropWhile isSpace).length
      ≤ (s.dropWhile isSpace).reverse.length :=
    (List.dropWhile_suffix isSpace).sublist.length_le
  simp only [strip, List.length_reverse]
  simpa [List.length_reverse] using le_trans h2 (by simpa using h1)

theorem mem_strip {c : Char} {s : List Char} (h : c ∈ strip s) : c ∈ s := by
  simp only [strip, List.mem_reverse] at h
  have h1 := (List.dropWhile_suffix (l := (s.dropWhile isSpace).reverse) isSpace).subset h
  rw [List.mem_reverse] at h1
  exact (List.dropWhile_suffix isSpace).subset h1

theorem slice_length_le {α : Type} (s : List α) (a b : Nat) :
    (slice s a b).length ≤ b - a := by
  simp only [slice, List.length_drop, List.length_take]
  omega

theorem slice_subset {α : Type} {x : α} {s : List α} {a b : Nat}
    (h : x ∈ slice s a b) : x ∈ s :=
  List.mem_of_mem_take (List.mem_of_mem_drop h)

/-- The head surviving `dropWhile` fails the predicate. -/
theorem head?_dropWhile_false {p : Char → Bool} :
    ∀ {l : List Char} {c : Char}, (List.dropWhile p l).head? = some c → p c = false := by
  intro l
  induction l with
  | nil => intro c h; simp at h
  | cons a t ih =>
    intro c h
    rw [List.dropWhile_cons] at h
    by_cases hp : p a = true
    · exact ih (by simpa [hp] using h)
    · rw [if_neg hp] at h
      simp only [List.head?_cons, Option.some.injEq] at h
      subst h
      simpa using hp

theorem getLast?_reverse {α : Type} (l : List α) : l.reverse.getLast? = l.head? := by
  have := List.head?_reverse l.reverse
  rw [List.reverse_reverse] at this
  exact this.symm

/-- The function `dropWhile` is the identity when the head fails the predicate. -/
theorem dropWhile_eq_self {p : Char → Bool} {l : List Char} {c : Char}
    (hh : l.head? = some c) (hc : p c = false) : List.dropWhile p l = l := by
  cases l with
  | nil => rfl
  | cons a t =>
    simp only [List.head?_cons, Option.some.injEq] at hh
    subst hh
    rw [List.dropWhile_cons, if_neg (by simp [hc])]

/-- The first character of a stripped string is not whitespace. -/
theorem strip_head {s : List Char} {c : Char} (h : (strip s).head? = some c) :
    isSpace c = false := by
  set A := s.dropWhile isSpace with hA
  set C := A.reverse.dropWhile isSpace with hC
  have hsh : (strip s).head? = C.getLast? := by
    rw [strip, ← hA, ← hC, List.head?_reverse]
  rw [hsh] at h
  have hCne : C ≠ [] := by
    intro he; rw [he] at h; simp at h
  obtain ⟨pre, hpre⟩ := List.dropWhile_suffix (l := A.reverse) isSpace
  rw [← hC] at hpre
  have : A.reverse.getLast? = C.getLast? := by
    rw [← hpre, List.getLast?_append_of_ne_nil _ hCne]
  rw [← this, getLast?_reverse] at h
  exact head?_dropWhile_false h

/-- The last character of a stripped string is not whitespace. -/
theorem strip_last {s : List Char} {c : Char} (h : (strip s).getLast? = some c) :
    isSpace c = false := by
  rw [strip, getLast?_reverse] at h
  exact head?_dropWhile_false h

/-- Stripping a string whose first character is not whitespace yields a
non-empty string. -/
theorem strip_ne_nil_of_head {s : List Char} {c : Char}
    (hh : s.head? = some c) (hc : isSpace c = false) : strip s ≠ [] := by
  have h1 : s.dropWhile isSpace = s := dropWhile_eq_self hh hc
  intro he
  rw [strip, h1] at he
  have h2 : s.reverse.dropWhile isSpace = [] := by
    simpa using congrArg List.reverse he
  have h3 : ∀ x ∈ s.reverse, isSpace x = true := List.dropWhile_eq_nil_iff.1 h2
  have hcs : c ∈ s := by
    cases s with
    | nil => simp at hh
    | cons a t => simp only [List.head?_cons, Option.some.injEq] at hh; simp [hh]
  have := h3 c (by simpa using hcs)
  rw [hc] at this
  exact Bool.false_ne_true this

/-! ## Lemmas about `buildText` -/

theorem buildText_length (l : List Segment) :
    (buildText l).1.length = (buildText l).2.length := by
  induction l with
  | nil => rfl
  | cons seg rest ih => simp only [buildText, List.length_append,
      List.length_cons, List.length_replicate, ih]; omega

theorem mem_buildText_snd {x : Segment} :
    ∀ {l : List Segment}, x ∈ (buildText l).2 → x ∈ l := by
  intro l
  induction l with
  | nil => intro h; simp [buildText] at h
  | cons seg rest ih =>
    intro h
    simp only [buildText, List.mem_append] at h
    rcases h with h | h
    · have := List.eq_of_mem_replicate h
      simp [this]
    · simp [ih h]

/-! ## Per-chunk invariants of the chunking loop -/

/-- Everything the loop guarantees about an emitted chunk: its text is the
non-empty trimmed window slice, its metadata is computed from a non-empty,
duplicate-free, id-sorted list of contributing segments drawn from
`charToSeg`. -/
theorem mem_chunkLoop {c : TextChunker} {ft : List Char} {cts : List Segment}
    {sf : Option (List Char)} {ch : Chunk} :
    ∀ {fuel s i : Nat}, ch ∈ chunkLoop c ft cts sf fuel s i →
      ∃ segs : List Segment, ∃ hne : segs ≠ [],
        ch.text ≠ [] ∧
        ch.char_count = ch.text.length ∧
        ch.text.length ≤ c.target_chars ∧
        ch.segment_ids = segs.map Segment.id ∧
        ch.start = (segs.head hne).start ∧
        ch.stop = (segs.getLast hne).stop ∧
        ch.source_file = sf ∧
        (∀ x ∈ segs, x ∈ cts) ∧
        segs.Nodup ∧
        List.Pairwise (fun a b => a.id ≤ b.id) segs := by
  intro fuel
  induction fuel with
  | zero => intro s i h; simp [chunkLoop] at h
  | succ fuel ih =>
    intro s i h
    rw [chunkLoop] at h
    by_cases h1 : s < ft.length
    · rw [if_pos h1] at h
      simp only at h
      set e := min (s + c.target_chars) ft.length with he
      set T := strip (slice ft s e) with hT
      by_cases h2 : T.isEmpty
      · rw [if_pos h2] at h; simp at h
      · rw [if_neg h2] at h
        set S := sortById (slice cts s (min e cts.length)).dedup with hS
        rw [List.mem_append] at h
        rcases h with h | h
        · -- emitted here
          cases hS' : S with
          | nil => rw [hS'] at h; simp [mkChunks] at h
          | cons s0 rest =>
            rw [hS'] at h
            simp only [mkChunks, List.mem_singleton] at h
            subst h
            refine ⟨s0 :: rest, List.cons_ne_nil s0 rest, ?_, rfl, ?_, rfl, rfl, rfl, rfl,
              ?_, ?_, ?_⟩
            · simpa [List.isEmpty_iff] using h2
            · -- |T| ≤ target_chars
              have hs1 : (slice ft s e).length ≤ e - s := slice_length_le ft s e
              have hs2 : T.length ≤ (slice ft s e).length := strip_length_le _
              have hs3 : e ≤ s + c.target_chars := by rw [he]; exact min_le_left _ _
              show T.length ≤ c.target_chars
              omega
            · -- membership in cts
              intro x hx
              rw [← hS'] at hx
              rw [hS, sortById, List.mem_insertionSort] at hx
              exact slice_subset (List.mem_dedup.1 hx)
            · -- Nodup
              rw [← hS', hS, sortById]
              exact (List.perm_insertionSort _ _).nodup_iff.2 (List.nodup_dedup _)
            · -- sorted by id
              rw [← hS', hS, sortById]
              haveI : IsTotal Segment (fun a b => a.id ≤ b.id) :=
                ⟨fun a b => le_total a.id b.id⟩
              haveI : IsTrans Segment (fun a b => a.id ≤ b.id) :=
                ⟨fun _ _ _ hab hbc => le_trans hab hbc⟩
              exact List.sorted_insertionSort _ _
        · -- emitted later
          by_cases h3 : ft.length ≤ e
          · rw [if_pos h3] at h; simp at h
          · rw [if_neg h3] at h
            exact ih h
    · rw [if_neg h1] at h; simp at h

/-- Per-chunk invariants at the level of `chunk_segments`: contributing
segments come from the input list. -/
theorem mem_chunk_segments {c : TextChunker} {segments : List Segment}
    {sf : Option (List Char)} {ch : Chunk}
    (h : ch ∈ c.chunk_segments segments sf) :
    ∃ segs : List Segment, ∃ hne : segs ≠ [],
      ch.text ≠ [] ∧
      ch.char_count = ch.text.length ∧
      ch.text.length ≤ c.target_chars ∧
      ch.segment_ids = segs.map Segment.id ∧
      ch.start = (segs.head hne).start ∧
      ch.stop = (segs.getLast hne).stop ∧
      ch.source_file = sf ∧
      (∀ x ∈ segs, x ∈ segments) ∧
      segs.Nodup ∧
      List.Pairwise (fun a b => a.id ≤ b.id) segs := by
  rw [TextChunker.chunk_segments, TextChunker.chunk_segmentsFuel] at h
  by_cases h0 : segments.isEmpty
  · rw [if_pos h0] at h; simp at h
  · rw [if_neg h0] at h
    simp only at h
    obtain ⟨segs, hne, rest⟩ := mem_chunkLoop h
    refine ⟨segs, hne, rest.1, rest.2.1, rest.2.2.1, rest.2.2.2.1, rest.2.2.2.2.1,
      rest.2.2.2.2.2.1, rest.2.2.2.2.2.2.1, ?_, rest.2.2.2.2.2.2.2.2.1,
      rest.2.2.2.2.2.2.2.2.2⟩
    intro x hx
    exact mem_buildText_snd (rest.2.2.2.2.2.2.2.1 x hx)

/-- Shape of a successfully constructed chunker. -/
theorem init_ok {t o : Nat} {c : TextChunker}
    (h : TextChunker.init t o = Except.ok c) :
    o < t ∧ c.target_chars = t ∧ c.overlap_chars = o ∧ c.stride = t - o := by
  rw [TextChunker.init] at h
  by_cases hlt : o ≥ t
  · rw [if_pos hlt] at h; simp at h
  · rw [if_neg hlt] at h
    simp only [Except.ok.injEq] at h
    subst h
    exact ⟨by omega, rfl, rfl, rfl⟩

/-- The chunking loop is insensitive to fuel once the fuel exceeds the
number of remaining offsets: with `stride ≥ 1` every iteration advances the
offset, so `ft.length - s` bounds the remaining iterations. -/
theorem chunkLoop_fuel_stable (c : TextChunker) (ft : List Char) (cts : List Segment)
    (sf : Option (List Char)) (hstride : 1 ≤ c.stride) :
    ∀ f1 f2 s i : Nat, ft.length - s < f1 → ft.length - s < f2 →
      chunkLoop c ft cts sf f1 s i = chunkLoop c ft cts sf f2 s i := by
  intro f1
  induction f1 with
  | zero => intro f2 s i h1 h2; omega
  | succ f1 ih =>
    intro f2 s i h1 h2
    cases f2 with
    | zero => omega
    | succ f2 =>
      rw [chunkLoop, chunkLoop]
      by_cases hs : s < ft.length
      · rw [if_pos hs, if_pos hs]
        simp only
        by_cases hT : (strip (slice ft s (min (s + c.target_chars) ft.length))).isEmpty
        · rw [if_pos hT, if_pos hT]
        · rw [if_neg hT, if_neg hT]
          congr 1
          by_cases hend : ft.length ≤ min (s + c.target_chars) ft.length
          · rw [if_pos hend, if_pos hend]
          · rw [if_neg hend, if_neg hend]
            exact ih f2 (s + c.stride) _ (by omega) (by omega)
      · rw [if_neg hs, if_neg hs]

/-- With empty stripped text the loop does nothing. -/
theorem chunk_segments_eq_nil_of_strip_nil {c : TextChunker} {segments : List Segment}
    {sf : Option (List Char)} (h : strip (buildText segments).1 = []) :
    c.chunk_segments segments sf = [] := by
  rw [TextChunker.chunk_segments, TextChunker.chunk_segmentsFuel]
  by_cases h0 : segments.isEmpty
  · rw [if_pos h0]
  · rw [if_neg h0]
    simp only
    rw [chunkLoop, if_neg (by rw [h]; simp)]

/-- With non-empty stripped text and a valid configuration, the very first
window emits a chunk. -/
theorem chunk_segments_ne_nil {c : TextChunker} {segments : List Segment}
    {sf : Option (List Char)} (htarget : 1 ≤ c.target_chars)
    (h : strip (buildText segments).1 ≠ []) :
    c.chunk_segments segments sf ≠ [] := by
  set built := buildText segments with hbuilt
  set ft := strip built.1 with hft
  have hlen : 1 ≤ ft.length := by
    cases hft' : ft with
    | nil => exact absurd hft' h
    | cons a t => simp [hft']
  have hsegne : segments.isEmpty = false := by
    cases hseg : segments with
    | nil =>
      rw [hseg] at hbuilt
      rw [hbuilt] at hft
      simp only [buildText] at hft
      exact absurd hft.symm (by simp [strip, hft] at h)
    | cons s ss => rfl
  rw [TextChunker.chunk_segments, TextChunker.chunk_segmentsFuel, if_neg (by simp [hsegne])]
  simp only
  rw [← hbuilt, ← hft, chunkLoop, if_pos (by omega)]
  simp only
  -- the first window's trimmed text is non-empty
  obtain ⟨c0, hc0⟩ : ∃ c0, ft.head? = some c0 := by
    cases hft' : ft with
    | nil => exact absurd hft' h
    | cons a t => exact ⟨a, rfl⟩
  have hc0sp : isSpace c0 = false := strip_head (s := built.1) (by rw [← hft]; exact hc0)
  have he1 : 1 ≤ min (0 + c.target_chars) ft.length := by
    simp only [Nat.zero_add]
    omega
  have hslice : (slice ft 0 (min (0 + c.target_chars) ft.length)).head? = some c0 := by
    rw [slice, List.drop_zero, List.head?_take, if_neg (by omega)]
    exact hc0
  have hTne : strip (slice ft 0 (min (0 + c.target_chars) ft.length)) ≠ [] :=
    strip_ne_nil_of_head hslice hc0sp
  rw [if_neg (by simpa [List.isEmpty_iff] using hTne)]
  -- the first window's contributing-segment list is non-empty
  have hcts : 1 ≤ built.2.length := by
    have h1 := buildText_length segments
    have h2 := strip_length_le built.1
    rw [← hbuilt] at h1
    rw [← hft] at h2
    omega
  have hsl : (slice built.2 0 (min (min (0 + c.target_chars) ft.length) built.2.length)) ≠ [] := by
    rw [slice, List.drop_zero]
    have : (built.2.take (min (min (0 + c.target_chars) ft.length) built.2.length)).length
        = min (min (min (0 + c.target_chars) ft.length) built.2.length) built.2.length := by
      simp
    intro hnil
    rw [hnil] at this
    simp only [List.length_nil] at this
    omega
  obtain ⟨x, hx⟩ : ∃ x, x ∈ (slice built.2 0 (min (min (0 + c.target_chars) ft.length) built.2.length)) := by
    cases hsl' : slice built.2 0 (min (min (0 + c.target_chars) ft.length) built.2.length) with
    | nil => exact absurd hsl' hsl
    | cons a t => exact ⟨a, by simp [hsl']⟩
  have hdne : (slice built.2 0 (min (min (0 + c.target_chars) ft.length) built.2.length)).dedup ≠ [] := by
    intro hnil
    have := List.mem_dedup.2 hx
    rw [hnil] at this
    simp at this
  have hsne : sortById (slice built.2 0 (min (min (0 + c.target_chars) ft.length) built.2.length)).dedup ≠ [] := by
    intro hnil
    have hperm := List.perm_insertionSort (fun a b : Segment => a.id ≤ b.id)
      (slice built.2 0 (min (min (0 + c.target_chars) ft.length) built.2.length)).dedup
    rw [sortById] at hnil
    rw [hnil] at hperm
    exact hdne hperm.symm.eq_nil
  cases hS : sortById (slice built.2 0 (min (min (0 + c.target_chars) ft.length) built.2.length)).dedup with
  | nil => exact absurd hS hsne
  | cons s0 rest =>
    simp [mkChunks]

/-! ## Window lemmas -/

/-- The first recorded window starts at the loop's current offset. -/
theorem windowLoop_head_start {c : TextChunker} {ft : List Char} :
    ∀ {fuel s : Nat} {p : Nat × Nat},
      (windowLoop c ft fuel s).head? = some p → p.1 = s := by
  intro fuel
  cases fuel with
  | zero => intro s p h; simp [windowLoop] at h
  | succ fuel =>
    intro s p h
    rw [windowLoop] at h
    by_cases hs : s < ft.length
    · rw [if_pos hs] at h
      simp only at h
      by_cases hT : (strip (slice ft s (min (s + c.target_chars) ft.length))).isEmpty
      · rw [if_pos hT] at h
        simp only [List.head?_cons, Option.some.injEq] at h
        rw [← h]
      · rw [if_neg hT] at h
        simp only [List.head?_cons, Option.some.injEq] at h
        rw [← h]
    · rw [if_neg hs] at h
      simp at h

/-- Consecutive recorded windows start exactly `stride` apart. -/
theorem windowLoop_consecutive (c : TextChunker) (ft : List Char) :
    ∀ fuel s k : Nat, ∀ p q : Nat × Nat,
      (windowLoop c ft fuel s).get? k = some p →
      (windowLoop c ft fuel s).get? (k + 1) = some q →
      q.1 = p.1 + c.stride := by
  intro fuel
  induction fuel with
  | zero => intro s k p q hp hq; simp [windowLoop] at hp
  | succ fuel ih =>
    intro s k p q hp hq
    rw [windowLoop] at hp hq
    by_cases hs : s < ft.length
    · rw [if_pos hs] at hp hq
      simp only at hp hq
      by_cases hT : (strip (slice ft s (min (s + c.target_chars) ft.length))).isEmpty
      · rw [if_pos hT] at hq
        rw [List.get?_cons_succ] at hq
        simp at hq
      · rw [if_neg hT] at hp hq
        by_cases hend : ft.length ≤ min (s + c.target_chars) ft.length
        · rw [if_pos hend] at hq
          rw [List.get?_cons_succ] at hq
          simp at hq
        · rw [if_neg hend] at hp hq
          cases k with
          | zero =>
            rw [List.get?_cons_succ] at hq
            simp only [List.get?_zero, List.head?_cons, Option.some.injEq] at hp
            have hq1 : q.1 = s + c.stride := by
              rw [List.get?_zero] at hq
              exact windowLoop_head_start hq
            rw [hq1, ← hp]
          | succ k =>
            rw [List.get?_cons_succ] at hp hq
            exact ih (s + c.stride) k p q hp hq
    · rw [if_neg hs] at hp
      simp at hp

/-- Coverage: provided no processed window trims to the empty string, every
character offset of the (stripped) text lies in some processed window
`[start, start + target_chars)`.  Requires `1 ≤ stride ≤ target_chars` and
enough fuel. -/
theorem windowLoop_cover (c : TextChunker) (ft : List Char)
    (hstride1 : 1 ≤ c.stride) (hst : c.stride ≤ c.target_chars) :
    ∀ fuel s : Nat, ft.length - s < fuel →
      (∀ p ∈ windowLoop c ft fuel s, strip (slice ft p.1 p.2) ≠ []) →
      ∀ i : Nat, s ≤ i → i < ft.length →
        ∃ p ∈ windowLoop c ft fuel s, p.1 ≤ i ∧ i < p.1 + c.target_chars := by
  intro fuel
  induction fuel with
  | zero => intro s hf hne i hsi hil; omega
  | succ fuel ih =>
    intro s hf hne i hsi hil
    have hs : s < ft.length := by omega
    rw [windowLoop] at hne ⊢
    rw [if_pos hs] at hne ⊢
    simp only at hne ⊢
    by_cases hT : (strip (slice ft s (min (s + c.target_chars) ft.length))).isEmpty
    · exfalso
      have := hne (s, min (s + c.target_chars) ft.length) (by rw [if_pos hT]; simp)
      rw [List.isEmpty_iff] at hT
      exact this hT
    · rw [if_neg hT] at hne ⊢
      by_cases hi : i < s + c.target_chars
      · exact ⟨(s, min (s + c.target_chars) ft.length), by simp, hsi, hi⟩
      · have hlt : s + c.target_chars < ft.length := by omega
        have hend : ¬ ft.length ≤ min (s + c.target_chars) ft.length := by
          rw [min_eq_left (by omega)]
          omega
        rw [if_neg hend] at hne ⊢
        obtain ⟨p, hp, hple, hplt⟩ :=
          ih (s + c.stride) (by omega)
            (fun p hp => hne p (List.mem_cons_of_mem _ hp)) i (by omega) hil
        exact ⟨p, List.mem_cons_of_mem _ hp, hple, hplt⟩

end Tcpcm

namespace TcpcmClaims

open Tcpcm

/-- C1: for every chunk emitted by `chunk_segments` (over segments with
unique ids, as the data model requires), `chunk.start` equals the `start`
of the segment whose id is `segment_ids[0]` and `chunk.end` equals the
`end` of the segment whose id is `segment_ids[-1]`. -/
theorem c1_chunk_boundary_timestamps (c : TextChunker) (segments : List Segment)
    (sf : Option (List Char)) (hids : (segments.map Segment.id).Nodup)
    (ch : Chunk) (hch : ch ∈ c.chunk_segments segments sf)
    (sFirst sLast : Segment) (hf : sFirst ∈ segments) (hl : sLast ∈ segments)
    (hfid : ch.segment_ids.head? = some sFirst.id)
    (hlid : ch.segment_ids.getLast? = some sLast.id) :
    ch.start = sFirst.start ∧ ch.stop = sLast.stop := by
  obtain ⟨segs, hne, -, -, -, hsid, hstart, hstop, -, hmem, -, -⟩ :=
    mem_chunk_segments hch
  have hinj := List.inj_on_of_nodup_map hids
  cases segs with
  | nil => exact absurd rfl hne
  | cons s0 rest =>
    constructor
    · -- head
      have hh : ch.segment_ids.head? = some s0.id := by
        rw [hsid]; rfl
      rw [hh] at hfid
      have hid0 : sFirst.id = s0.id := by
        simpa using hfid.symm
      have hs0 : s0 ∈ segments := hmem s0 (by simp)
      have : sFirst = s0 := hinj hf hs0 hid0
      rw [hstart, this]
      rfl
    · -- last
      have hlast : ch.segment_ids.getLast? =
          some ((s0 :: rest).getLast (List.cons_ne_nil s0 rest)).id := by
        rw [hsid, List.getLast?_map, List.getLast?_eq_getLast _ (List.cons_ne_nil s0 rest)]
        rfl
      rw [hlast] at hlid
      have hidl : sLast.id = ((s0 :: rest).getLast (List.cons_ne_nil s0 rest)).id := by
        simpa using hlid.symm
      have hsl : (s0 :: rest).getLast (List.cons_ne_nil s0 rest) ∈ segments :=
        hmem _ (List.getLast_mem _)
      have : sLast = (s0 :: rest).getLast (List.cons_ne_nil s0 rest) := hinj hl hsl hidl
      rw [hstop, this]

/-- C1 witness: a single short segment produces one chunk whose timestamps
are that segment's. -/
theorem c1_chunk_boundary_timestamps_witness :
    ({ chunk_id := 0, text := ['a', 'b'], start := 0, stop := 5,
       segment_ids := [0], char_count := 2, source_file := none } : Chunk).start
        = (⟨0, 0, 5, ['a', 'b']⟩ : Segment).start ∧
    ({ chunk_id := 0, text := ['a', 'b'], start := 0, stop := 5,
       segment_ids := [0], char_count := 2, source_file := none } : Chunk).stop
        = (⟨0, 0, 5, ['a', 'b']⟩ : Segment).stop :=
  c1_chunk_boundary_timestamps ⟨50, 10, 40⟩ [⟨0, 0, 5, ['a', 'b']⟩] none
    (by decide) _ (by decide) ⟨0, 0, 5, ['a', 'b']⟩ ⟨0, 0, 5, ['a', 'b']⟩
    (by decide) (by decide) (by decide) (by decide)

/-- C5: every chunk emitted by `chunk_segments` (over segments with unique
ids) has a non-empty, strictly ascending `segment_ids` list, and
`char_count` equals the length of its text. -/
theorem c5_segment_ids_invariant (c : TextChunker) (segments : List Segment)
    (sf : Option (List Char)) (hids : (segments.map Segment.id).Nodup)
    (ch : Chunk) (hch : ch ∈ c.chunk_segments segments sf) :
    ch.segment_ids ≠ [] ∧ List.Pairwise (· < ·) ch.segment_ids ∧
      ch.char_count = ch.text.length := by
  obtain ⟨segs, hne, -, hcc, -, hsid, -, -, -, hmem, hnd, hsort⟩ :=
    mem_chunk_segments hch
  have hinj := List.inj_on_of_nodup_map hids
  refine ⟨?_, ?_, hcc⟩
  · rw [hsid]
    simpa using hne
  · rw [hsid, List.pairwise_map]
    have hand := hsort.and hnd
    refine List.Pairwise.imp_of_mem ?_ hand
    intro a b ha hb hr
    rcases hr with ⟨hle, hneq⟩
    rcases lt_or_eq_of_le hle with h | h
    · exact h
    · exact absurd (hinj (hmem a ha) (hmem b hb) h) hneq

/-- C5 witness. -/
theorem c5_segment_ids_invariant_witness :
    ({ chunk_id := 0, text := ['a', 'b'], start := 0, stop := 5,
       segment_ids := [0], char_count := 2, source_file := none } : Chunk).segment_ids ≠ [] ∧
    List.Pairwise (· < ·)
      ({ chunk_id := 0, text := ['a', 'b'], start := 0, stop := 5,
         segment_ids := [0], char_count := 2, source_file := none } : Chunk).segment_ids ∧
    ({ chunk_id := 0, text := ['a', 'b'], start := 0, stop := 5,
       segment_ids := [0], char_count := 2, source_file := none } : Chunk).char_count
      = ({ chunk_id := 0, text := ['a', 'b'], start := 0, stop := 5,
           segment_ids := [0], char_count := 2, source_file := none } : Chunk).text.length :=
  c5_segment_ids_invariant ⟨50, 10, 40⟩ [⟨0, 0, 5, ['a', 'b']⟩] none
    (by decide) _ (by decide)

/-- C9: every emitted chunk's `char_count` is at most `target_chars`: the
window slice is at most `target_chars` characters and stripping only
shortens it. -/
theorem c9_char_count_le_target (c : TextChunker) (segments : List Segment)
    (sf : Option (List Char)) (ch : Chunk)
    (hch : ch ∈ c.chunk_segments segments sf) :
    ch.char_count ≤ c.target_chars := by
  obtain ⟨segs, hne, -, hcc, hlen, -⟩ := mem_chunk_segments hch
  rw [hcc]
  exact hlen

/-- C9 witness. -/
theorem c9_char_count_le_target_witness :
    ({ chunk_id := 0, text := ['a', 'b'], start := 0, stop := 5,
       segment_ids := [0], char_count := 2, source_file := none } : Chunk).char_count
      ≤ (⟨50, 10, 40⟩ : TextChunker).target_chars :=
  c9_char_count_le_target ⟨50, 10, 40⟩ [⟨0, 0, 5, ['a', 'b']⟩] none _ (by decide)

/-- C10: every emitted chunk has non-empty text, hence `char_count ≥ 1`:
a window whose trimmed text is empty is never emitted. -/
theorem c10_chunk_text_nonempty (c : TextChunker) (segments : List Segment)
    (sf : Option (List Char)) (ch : Chunk)
    (hch : ch ∈ c.chunk_segments segments sf) :
    ch.text ≠ [] ∧ 1 ≤ ch.char_count := by
  obtain ⟨segs, hne, htext, hcc, -⟩ := mem_chunk_segments hch
  refine ⟨htext, ?_⟩
  rw [hcc]
  cases h : ch.text with
  | nil => exact absurd h htext
  | cons a t => simp [h]

/-- C10 witness. -/
theorem c10_chunk_text_nonempty_witness :
    ({ chunk_id := 0, text := ['a', 'b'], start := 0, stop := 5,
       segment_ids := [0], char_count := 2, source_file := none } : Chunk).text ≠ [] ∧
    1 ≤ ({ chunk_id := 0, text := ['a', 'b'], start := 0, stop := 5,
           segment_ids := [0], char_count := 2, source_file := none } : Chunk).char_count :=
  c10_chunk_text_nonempty ⟨50, 10, 40⟩ [⟨0, 0, 5, ['a', 'b']⟩] none _ (by decide)

/-- C2 counterexample: with glossary-free chunking of segments
`"a"`, `"     "` (five spaces), `"b"` under `target_chars=3, overlap_chars=1`
the loop stops at the all-whitespace second window, so the character `b`
(offset 8 of the stripped joined text) lies in no processed window:
coverage fails although the chunker was validly constructed. -/
theorem c2_counterexample :
    TextChunker.init 3 1 = Except.ok ⟨3, 1, 2⟩ ∧
    ¬ (∀ i, i < (strip (buildText
          [(⟨0, 0, 1, ['a']⟩ : Segment), ⟨1, 1, 2, [' ', ' ', ' ', ' ', ' ']⟩,
           ⟨2, 2, 3, ['b']⟩]).1).length →
        ∃ p ∈ chunkWindows ⟨3, 1, 2⟩
          [(⟨0, 0, 1, ['a']⟩ : Segment), ⟨1, 1, 2, [' ', ' ', ' ', ' ', ' ']⟩,
           ⟨2, 2, 3, ['b']⟩],
          p.1 ≤ i ∧ i < p.1 + (⟨3, 1, 2⟩ : TextChunker).target_chars) := by
  refine ⟨rfl, by decide⟩

/-- C2 (amended): for a validly constructed chunker, provided no processed
window trims to the empty string (the loop stops early at an
all-whitespace window, which the original claim does not account for),
every character offset of the stripped joined text lies in a processed
window `[start_char, start_char + target_chars)`; and consecutive
processed windows always start `stride` apart, i.e. they overlap in
exactly `overlap_chars` character positions. -/
theorem c2_window_coverage_amended (t o : Nat) (c : TextChunker)
    (hc : TextChunker.init t o = Except.ok c) (segments : List Segment)
    (hne : ∀ p ∈ chunkWindows c segments,
        strip (slice (strip (buildText segments).1) p.1 p.2) ≠ []) :
    (∀ i, i < (strip (buildText segments).1).length →
        ∃ p ∈ chunkWindows c segments, p.1 ≤ i ∧ i < p.1 + c.target_chars) ∧
    (∀ k : Nat, ∀ p q : Nat × Nat,
        (chunkWindows c segments).get? k = some p →
        (chunkWindows c segments).get? (k + 1) = some q →
        q.1 = p.1 + c.stride ∧ q.1 + c.overlap_chars = p.1 + c.target_chars) := by
  obtain ⟨hlt, htarget, hover, hstride⟩ := init_ok hc
  simp only [chunkWindows] at hne
  constructor
  · intro i hi
    simp only [chunkWindows]
    exact windowLoop_cover c _ (by omega) (by omega) _ 0 (by omega) hne i (by omega) hi
  · intro k p q hp hq
    simp only [chunkWindows] at hp hq
    have h1 := windowLoop_consecutive c _ _ 0 k p q hp hq
    exact ⟨h1, by omega⟩

/-- C2 witness: a single short segment, where the only window covers the
whole text. -/
theorem c2_window_coverage_amended_witness :
    (∀ i, i < (strip (buildText [(⟨0, 0, 5, ['a', 'b']⟩ : Segment)]).1).length →
        ∃ p ∈ chunkWindows ⟨50, 10, 40⟩ [(⟨0, 0, 5, ['a', 'b']⟩ : Segment)],
          p.1 ≤ i ∧ i < p.1 + (⟨50, 10, 40⟩ : TextChunker).target_chars) ∧
    (∀ k : Nat, ∀ p q : Nat × Nat,
        (chunkWindows ⟨50, 10, 40⟩ [(⟨0, 0, 5, ['a', 'b']⟩ : Segment)]).get? k = some p →
        (chunkWindows ⟨50, 10, 40⟩ [(⟨0, 0, 5, ['a', 'b']⟩ : Segment)]).get? (k + 1) = some q →
        q.1 = p.1 + (⟨50, 10, 40⟩ : TextChunker).stride ∧
          q.1 + (⟨50, 10, 40⟩ : TextChunker).overlap_chars
            = p.1 + (⟨50, 10, 40⟩ : TextChunker).target_chars) :=
  c2_window_coverage_amended 50 10 ⟨50, 10, 40⟩ rfl
    [(⟨0, 0, 5, ['a', 'b']⟩ : Segment)] (by decide)

/-- C3 counterexample: a non-empty segment list whose only segment has
empty text yields zero chunks, so "at least one chunk for every non-empty
segment sequence" is false on the code. -/
theorem c3_counterexample :
    ([⟨0, 0, 5, []⟩] : List Segment) ≠ [] ∧
    TextChunker.init 50 10 = Except.ok ⟨50, 10, 40⟩ ∧
    TextChunker.chunk_segments ⟨50, 10, 40⟩ [⟨0, 0, 5, []⟩] none = [] := by
  refine ⟨by decide, rfl, by decide⟩

/-- C3 (amended): for a validly constructed chunker, `chunk_segments`
terminates — any fuel beyond `|fullText|` gives the same result — and
returns at least one chunk exactly when the stripped whitespace-joined
segment text is non-empty (rather than for every non-empty segment list). -/
theorem c3_totality_amended (t o : Nat) (c : TextChunker)
    (hc : TextChunker.init t o = Except.ok c)
    (segments : List Segment) (sf : Option (List Char)) :
    (∀ fuel, (strip (buildText segments).1).length < fuel →
        c.chunk_segmentsFuel segments sf fuel = c.chunk_segments segments sf) ∧
    (c.chunk_segments segments sf ≠ [] ↔ strip (buildText segments).1 ≠ []) := by
  obtain ⟨hlt, htarget, hover, hstride⟩ := init_ok hc
  constructor
  · intro fuel hfuel
    rw [TextChunker.chunk_segments, TextChunker.chunk_segmentsFuel,
      TextChunker.chunk_segmentsFuel]
    by_cases h0 : segments.isEmpty
    · rw [if_pos h0, if_pos h0]
    · rw [if_neg h0, if_neg h0]
      simp only
      exact chunkLoop_fuel_stable c _ _ sf (by omega) fuel _ 0 0 (by omega) (by omega)
  · constructor
    · intro hne
      intro hnil
      exact hne (chunk_segments_eq_nil_of_strip_nil hnil)
    · intro hne
      exact chunk_segments_ne_nil (by omega) hne

/-- C3 witness: on a one-segment input with non-blank text the amended
theorem yields a non-empty chunk list and fuel stability. -/
theorem c3_totality_amended_witness :
    (∀ fuel, (strip (buildText [(⟨0, 0, 5, ['a', 'b']⟩ : Segment)]).1).length < fuel →
        TextChunker.chunk_segmentsFuel ⟨50, 10, 40⟩ [⟨0, 0, 5, ['a', 'b']⟩] none fuel
          = TextChunker.chunk_segments ⟨50, 10, 40⟩ [⟨0, 0, 5, ['a', 'b']⟩] none) ∧
    (TextChunker.chunk_segments ⟨50, 10, 40⟩ [⟨0, 0, 5, ['a', 'b']⟩] none ≠ []
      ↔ strip (buildText [(⟨0, 0, 5, ['a', 'b']⟩ : Segment)]).1 ≠ []) :=
  c3_totality_amended 50 10 ⟨50, 10, 40⟩ rfl [⟨0, 0, 5, ['a', 'b']⟩] none

/-- C4: construction fails (with the `ValueError` that the spec's error
taxonomy calls `ConfigurationError`) exactly when
`overlap_chars >= target_chars`, before any chunking is attempted;
otherwise it succeeds and stores the configuration. -/
theorem c4_construction_validation (t o : Nat) :
    (t ≤ o → TextChunker.init t o
        = Except.error "overlap_chars must be less than target_chars") ∧
    (o < t → TextChunker.init t o = Except.ok ⟨t, o, t - o⟩) := by
  constructor
  · intro h
    rw [TextChunker.init, if_pos (by omega)]
  · intro h
    rw [TextChunker.init, if_neg (by omega)]

/-- C4 witness: `target_chars=50` with `overlap_chars=50` and with
`overlap_chars=60` both fail; `overlap_chars=10` succeeds. -/
theorem c4_construction_validation_witness :
    TextChunker.init 50 50 = Except.error "overlap_chars must be less than target_chars" ∧
    TextChunker.init 50 60 = Except.error "overlap_chars must be less than target_chars" ∧
    TextChunker.init 50 10 = Except.ok ⟨50, 10, 40⟩ :=
  ⟨(c4_construction_validation 50 50).1 (by decide),
   (c4_construction_validation 50 60).1 (by decide),
   (c4_construction_validation 50 10).2 (by decide)⟩

/-- C6: chunking an empty segment sequence returns the empty chunk
sequence (and, being a total function, raises no error). -/
theorem c6_empty_segments (c : TextChunker) (sf : Option (List Char)) :
    c.chunk_segments [] sf = [] := rfl

end TcpcmClaims

namespace Tcpcm

/-! ## Normalizer lemmas -/

/-- Where the scanning substitution finds no match it copies the text. -/
theorem subGo_id (terms : List (List Char)) (repl : List Char → List Char) :
    ∀ s : List Char, ∀ prev : Option Char, ∀ fuel : Nat, s.length ≤ fuel →
      existsMatch terms prev s = false → subGo terms repl fuel prev s = s := by
  intro s
  induction s with
  | nil =>
    intro prev fuel hf he
    cases fuel with
    | zero => rfl
    | succ fuel => rfl
  | cons c rest ih =>
    intro prev fuel hf he
    cases fuel with
    | zero => simp at hf
    | succ fuel =>
      rw [existsMatch] at he
      rw [Bool.or_eq_false_iff] at he
      obtain ⟨h1, h2⟩ := he
      have hnone : findMatch terms prev (c :: rest) = none := by
        cases hfm : findMatch terms prev (c :: rest) with
        | none => rfl
        | some t => rw [hfm] at h1; simp at h1
      rw [subGo, hnone]
      have hlen : rest.length ≤ fuel := by
        simp only [List.length_cons] at hf
        omega
      rw [ih (some c) fuel hlen h2]

/-- The substitution `pattern.sub` is the identity on texts the pattern does not match. -/
theorem subScan_id {terms : List (List Char)} {repl : List Char → List Char}
    {s : List Char} (he : existsMatch terms none s = false) :
    subScan terms repl s = s :=
  subGo_id terms repl s none s.length le_rfl he

/-- After a whitespace run was rewritten, the next emitted character is not
whitespace. -/
theorem collapseAux_true_head :
    ∀ {x : List Char} {c : Char},
      (collapseAux true x).head? = some c → isSpace c = false := by
  intro x
  induction x with
  | nil => intro c h; simp [collapseAux] at h
  | cons a t ih =>
    intro c h
    rw [collapseAux] at h
    by_cases ha : isSpace a = true
    · rw [if_pos ha] at h
      exact ih h
    · rw [if_neg ha] at h
      simp only [List.head?_cons, Option.some.injEq] at h
      rw [← h]
      simpa using ha

/-- The collapsed text has no two adjacent whitespace characters. -/
theorem collapseAux_chain (x : List Char) :
    ∀ b : Bool, List.Chain'
      (fun a d => ¬(isSpace a = true ∧ isSpace d = true)) (collapseAux b x) := by
  induction x with
  | nil => intro b; simp [collapseAux]
  | cons a t ih =>
    intro b
    rw [collapseAux]
    by_cases ha : isSpace a = true
    · rw [if_pos ha]
      cases b with
      | true => exact ih true
      | false =>
        show List.Chain' (fun a d => ¬(isSpace a = true ∧ isSpace d = true))
          (' ' :: collapseAux true t)
        refine List.chain'_cons'.2 ⟨?_, ih true⟩
        intro y hy
        intro hcon
        have := collapseAux_true_head hy
        rw [hcon.2] at this
        exact absurd this (by simp)
    · rw [if_neg ha]
      refine List.chain'_cons'.2 ⟨?_, ih false⟩
      intro y hy hcon
      exact ha hcon.1

/-- Every whitespace character of the collapsed text is a plain space. -/
theorem collapseAux_ws (x : List Char) :
    ∀ b : Bool, ∀ c : Char, c ∈ collapseAux b x → isSpace c = true → c = ' ' := by
  induction x with
  | nil => intro b c h; simp [collapseAux] at h
  | cons a t ih =>
    intro b c h hsp
    rw [collapseAux] at h
    by_cases ha : isSpace a = true
    · rw [if_pos ha] at h
      cases b with
      | true => exact ih true c h hsp
      | false =>
        have h' : c ∈ ' ' :: collapseAux true t := h
        rcases List.mem_cons.1 h' with h2 | h2
        · exact h2
        · exact ih true c h2 hsp
    · rw [if_neg ha] at h
      rcases List.mem_cons.1 h with h | h
      · rw [h] at hsp
        exact absurd hsp (by simpa using ha)
      · exact ih false c h hsp

/-- The run flag is irrelevant when the next character is not whitespace. -/
theorem collapseAux_true_eq_false {x : List Char} {c : Char}
    (hx : x.head? = some c) (hc : isSpace c = false) :
    collapseAux true x = collapseAux false x := by
  cases x with
  | nil => rfl
  | cons a t =>
    simp only [List.head?_cons, Option.some.injEq] at hx
    rw [collapseAux, collapseAux, if_neg (by rw [hx]; simp [hc]),
      if_neg (by rw [hx]; simp [hc])]

/-- Collapsing is the identity on texts with no adjacent whitespace whose
whitespace characters are all plain spaces. -/
theorem collapseAux_id :
    ∀ l : List Char,
      List.Chain' (fun a d => ¬(isSpace a = true ∧ isSpace d = true)) l →
      (∀ c ∈ l, isSpace c = true → c = ' ') →
      collapseAux false l = l := by
  intro l
  induction l with
  | nil => intro h1 h2; rfl
  | cons a t ih =>
    intro hch hws
    obtain ⟨hhead, htail⟩ := List.chain'_cons'.1 hch
    rw [collapseAux]
    by_cases ha : isSpace a = true
    · rw [if_pos ha]
      have ha' : a = ' ' := hws a (by simp) ha
      have h2 : collapseAux true t = t := by
        cases t with
        | nil => rfl
        | cons d r =>
          have hd : isSpace d = false := by
            have hRd := hhead d (by simp)
            cases hd' : isSpace d with
            | false => rfl
            | true => exact absurd ⟨ha, hd'⟩ hRd
          rw [collapseAux_true_eq_false (x := d :: r) (c := d) rfl hd]
          exact ih htail (fun c hc hsp => hws c (List.mem_cons_of_mem _ hc) hsp)
      rw [h2, ha']
      rfl
    · rw [if_neg ha]
      rw [ih htail (fun c hc hsp => hws c (List.mem_cons_of_mem _ hc) hsp)]

/-- Stripping is the identity when both ends are not whitespace. -/
theorem strip_id {l : List Char}
    (hh : ∀ c, l.head? = some c → isSpace c = false)
    (hl : ∀ c, l.getLast? = some c → isSpace c = false) :
    strip l = l := by
  cases l with
  | nil => rfl
  | cons a t =>
    have hha : isSpace a = false := hh a rfl
    have h1 : (a :: t).dropWhile isSpace = a :: t := dropWhile_eq_self rfl hha
    rw [strip, h1]
    obtain ⟨d, hd⟩ : ∃ d, (a :: t).reverse.head? = some d := by
      cases hr : (a :: t).reverse with
      | nil =>
        exact absurd (congrArg List.length hr) (by simp)
      | cons u v => exact ⟨u, rfl⟩
    have hdl : (a :: t).getLast? = some d := by
      rw [← List.head?_reverse]
      exact hd
    have h2 : (a :: t).reverse.dropWhile isSpace = (a :: t).reverse :=
      dropWhile_eq_self hd (hl d hdl)
    rw [h2, List.reverse_reverse]

/-- The function `strip` preserves chains of a symmetric relation. -/
theorem chain'_strip {R : Char → Char → Prop} (hsym : ∀ a b, R a b → R b a)
    {l : List Char} (h : List.Chain' R l) : List.Chain' R (strip l) := by
  have h1 : List.Chain' R (l.dropWhile isSpace) :=
    h.suffix (List.dropWhile_suffix _)
  have h2 : List.Chain' R (l.dropWhile isSpace).reverse := by
    rw [List.chain'_reverse]
    exact h1.imp (fun a b hab => hsym a b hab)
  have h3 : List.Chain' R ((l.dropWhile isSpace).reverse.dropWhile isSpace) :=
    h2.suffix (List.dropWhile_suffix _)
  rw [strip, List.chain'_reverse]
  exact h3.imp (fun a b hab => hsym a b hab)

/-- The composite `strip (re.sub(r'\s+', ' ', ·))` is idempotent. -/
theorem collapse_strip_idem (x : List Char) :
    strip (collapseAux false (strip (collapseAux false x)))
      = strip (collapseAux false x) := by
  set y := strip (collapseAux false x) with hy
  have hch : List.Chain' (fun a d => ¬(isSpace a = true ∧ isSpace d = true)) y := by
    rw [hy]
    exact chain'_strip (fun a b hab hcon => hab ⟨hcon.2, hcon.1⟩)
      (collapseAux_chain x false)
  have hws : ∀ c ∈ y, isSpace c = true → c = ' ' := by
    intro c hc
    rw [hy] at hc
    exact collapseAux_ws x false c (mem_strip hc)
  rw [collapseAux_id y hch hws]
  refine strip_id ?_ ?_
  · intro c h
    rw [hy] at h
    exact strip_head h
  · intro c h
    rw [hy] at h
    exact strip_last h

end Tcpcm


namespace TcpcmClaims

open Tcpcm

/-- The glossary of the normalization scenario, in `dict` insertion order. -/
def glossaryTc : List (List Char × List Char) :=
  [("tc pcm".toList, "TcPCM".toList), ("tcpcm".toList, "TcPCM".toList)]

/-- C7: with glossary `{"tc pcm": "TcPCM", "tcpcm": "TcPCM"}`,
`normalize` maps `"tc pcm is great"` and `"TCPCM is great"` to
`"TcPCM is great"`: matching is case-insensitive, whole-word,
longest-phrase-first, and the canonical form replaces the matched text's
original casing. -/
theorem c7_glossary_scenario :
    normalize glossaryTc false "tc pcm is great".toList = "TcPCM is great".toList ∧
    normalize glossaryTc false "TCPCM is great".toList = "TcPCM is great".toList := by
  constructor
  · decide
  · decide

/-- C8: normalizing already-normalized text — one in which the glossary
pattern and (when filler removal is on) the filler pattern no longer match
anywhere — returns it unchanged. -/
theorem c8_normalize_idempotent (glossary : List (List Char × List Char))
    (rf : Bool) (t : List Char)
    (hg : existsMatch (sortTermsDesc (glossary.map Prod.fst)) none
        (normalize glossary rf t) = false)
    (hf : rf = true → existsMatch FILLER_WORDS none (normalize glossary rf t) = false) :
    normalize glossary rf (normalize glossary rf t) = normalize glossary rf t := by
  set y := normalize glossary rf t with hy
  by_cases hye : y.isEmpty
  · rw [Tcpcm.normalize, if_pos hye]
  · rw [Tcpcm.normalize, if_neg hye]
    simp only
    have h1 : (if glossary.isEmpty then y else applyGlossary glossary y) = y := by
      by_cases hge : glossary.isEmpty
      · rw [if_pos hge]
      · rw [if_neg hge, applyGlossary]
        exact subScan_id hg
    rw [h1]
    have h2 : (if rf then removeFillers y else y) = y := by
      by_cases hrf : rf = true
      · rw [if_pos hrf, removeFillers]
        exact subScan_id (hf hrf)
      · rw [if_neg hrf]
    rw [h2]
    by_cases hte : t.isEmpty
    · exfalso
      apply hye
      rw [hy, Tcpcm.normalize, if_pos hte]
      exact hte
    · obtain ⟨z, hz⟩ : ∃ z, y = strip (collapseAux false z) := by
        rw [hy]
        simp only [Tcpcm.normalize, if_neg hte]
        exact ⟨_, rfl⟩
      rw [hz]
      exact collapse_strip_idem z

/-- C8 witness: `"hello   world  um"` normalizes (with fillers on) to
`"hello world"`, which the pattern no longer matches, so a second
normalization is the identity. -/
theorem c8_normalize_idempotent_witness :
    normalize glossaryTc true (normalize glossaryTc true "hello   world  um".toList)
      = normalize glossaryTc true "hello   world  um".toList :=
  c8_normalize_idempotent glossaryTc true "hello   world  um".toList
    (by decide) (fun _ => by decide)

end TcpcmClaims
